import Mathlib

/-!
Shallow embedding of the reduced-gravity shallow water model engine in
simple_animation/swm_matplotlib.py, together with theorems settling the
frozen claims about it.

Conventions used throughout:
- 2-D fields (mask, u, v, h) have shape (ny, nx) and are flattened in C
  order, so the flat index of the cell in row r (the y direction) and
  column c (the x direction) is c + nx * r.  This is the flattening the
  source applies to self.msk, u0, v0, h0 and to the snapshots U, V, Z.
- Float arithmetic is modelled by exact field arithmetic; matrix and
  vector values are taken in a generic field so that concrete evaluation
  can happen over the rationals while the running state lives over the
  reals.
- The sparse factorized solver returned by scipy (linalg.factorized(A),
  line 178) is an external capability; it is modelled as an injected
  function, and the property that it solves A x = b is a hypothesis.
-/

namespace SWM

/-- c + nx * r is below nx * ny whenever the column c is below nx and the
row r is below ny. -/
theorem add_mul_lt {nx ny c r : ℕ} (hc : c < nx) (hr : r < ny) :
    c + nx * r < nx * ny := by
  have h1 : c + nx * r < nx * (r + 1) := by
    have : nx * (r + 1) = nx * r + nx := by ring
    omega
  have h2 : nx * (r + 1) ≤ nx * ny := Nat.mul_le_mul_left nx hr
  omega

/-- A flat index below nx * ny forces both grid dimensions positive. -/
theorem pos_of_lt_mul {nx ny k : ℕ} (hk : k < nx * ny) : 0 < nx ∧ 0 < ny := by
  constructor
  · rcases Nat.eq_zero_or_pos nx with h | h
    · subst h; simp at hk
    · exact h
  · rcases Nat.eq_zero_or_pos ny with h | h
    · subst h; simp at hk
    · exact h

/-- Row index of a flat index is below ny. -/
theorem div_lt_of_lt_mul {nx ny k : ℕ} (hk : k < nx * ny) : k / nx < ny := by
  obtain ⟨hx, _⟩ := pos_of_lt_mul hk
  exact Nat.div_lt_iff_lt_mul hx |>.mpr (by rwa [Nat.mul_comm] at hk)

/-!
Index-shift arrays of SWM.operators (lines 99 to 107 of the source):
ii = np.arange(n).reshape(nx, ny, order=F) stores value i + nx * j at
position (i, j), and ie/iw/iin/iis roll ii by -1/+1 along axis 1 and
axis 0.  Flattened back in F order, the array value at flat position
k = i + nx * j is the shifted flat index recorded below.  Note that
relative to the C-order (ny, nx) flattening of the fields, axis 1 of ii
is the row (y) direction and axis 0 is the column (x) direction.
-/

/-- Value of ie.flatten(F) at flat position k (ie = np.roll(ii, -1, 1)). -/
def ieIdx (nx ny k : ℕ) : ℕ := k % nx + nx * ((k / nx + 1) % ny)

/-- Value of iw.flatten(F) at flat position k (iw = np.roll(ii, 1, 1)). -/
def iwIdx (nx ny k : ℕ) : ℕ := k % nx + nx * ((k / nx + (ny - 1)) % ny)

/-- Value of iin.flatten(F) at flat position k (iin = np.roll(ii, -1, 0)). -/
def inIdx (nx ny k : ℕ) : ℕ := (k % nx + 1) % nx + nx * (k / nx)

/-- Value of iis.flatten(F) at flat position k (iis = np.roll(ii, 1, 0)). -/
def isIdx (nx ny k : ℕ) : ℕ := (k % nx + (nx - 1)) % nx + nx * (k / nx)

theorem ieIdx_lt {nx ny k : ℕ} (hk : k < nx * ny) : ieIdx nx ny k < nx * ny := by
  obtain ⟨hx, hy⟩ := pos_of_lt_mul hk
  exact add_mul_lt (Nat.mod_lt _ hx) (Nat.mod_lt _ hy)

theorem iwIdx_lt {nx ny k : ℕ} (hk : k < nx * ny) : iwIdx nx ny k < nx * ny := by
  obtain ⟨hx, hy⟩ := pos_of_lt_mul hk
  exact add_mul_lt (Nat.mod_lt _ hx) (Nat.mod_lt _ hy)

theorem inIdx_lt {nx ny k : ℕ} (hk : k < nx * ny) : inIdx nx ny k < nx * ny := by
  obtain ⟨hx, _⟩ := pos_of_lt_mul hk
  exact add_mul_lt (Nat.mod_lt _ hx) (div_lt_of_lt_mul hk)

theorem isIdx_lt {nx ny k : ℕ} (hk : k < nx * ny) : isIdx nx ny k < nx * ny := by
  obtain ⟨hx, _⟩ := pos_of_lt_mul hk
  exact add_mul_lt (Nat.mod_lt _ hx) (div_lt_of_lt_mul hk)

/-!
The four shift operators, lines 104 to 107: IE = I[ie.flatten(F), :].
Row k of IE is the row ie.flatten(F)[k] of the identity, so the (k, l)
entry is 1 exactly when l equals the shifted index.  The source slices
the columns with the hardcoded bound 10201 = 101 * 101; for every grid
with nx * ny at most 10201 (in particular the shipped 101 x 101 grid and
every concrete grid considered in this file) that slice keeps all
columns, and the operator is the square matrix below.  For larger grids
the sliced operator is not square and the very next line DX = (IE-I)/dx
fails at run time on a shape mismatch.
-/

/-- IE = I[ie.flatten(F), :10201] (line 104). -/
def IEmat (nx ny : ℕ) (α : Type) [Field α] :
    Matrix (Fin (nx * ny)) (Fin (nx * ny)) α :=
  fun k l => if (l : ℕ) = ieIdx nx ny (k : ℕ) then 1 else 0

/-- IW = I[iw.flatten(F), :10201] (line 105). -/
def IWmat (nx ny : ℕ) (α : Type) [Field α] :
    Matrix (Fin (nx * ny)) (Fin (nx * ny)) α :=
  fun k l => if (l : ℕ) = iwIdx nx ny (k : ℕ) then 1 else 0

/-- IN = I[iin.flatten(F), :10201] (line 106). -/
def INmat (nx ny : ℕ) (α : Type) [Field α] :
    Matrix (Fin (nx * ny)) (Fin (nx * ny)) α :=
  fun k l => if (l : ℕ) = inIdx nx ny (k : ℕ) then 1 else 0

/-- IS = I[iis.flatten(F), :10201] (line 107). -/
def ISmat (nx ny : ℕ) (α : Type) [Field α] :
    Matrix (Fin (nx * ny)) (Fin (nx * ny)) α :=
  fun k l => if (l : ℕ) = isIdx nx ny (k : ℕ) then 1 else 0

/-- d0(M) = sparse.spdiags(M.flatten(), 0, n, n) (lines 55 to 58). -/
def d0 {n : ℕ} {α : Type} [Field α] (m : Fin n → α) : Matrix (Fin n) (Fin n) α :=
  Matrix.diagonal m

/-- Numeric value of a boolean mask entry (ocean = 1, land = 0). -/
def bval (α : Type) [Field α] (b : Bool) : α := if b then 1 else 0

/-- The flattened numeric mask vector corresponding to a boolean mask. -/
def mskv (α : Type) [Field α] {n : ℕ} (mB : Fin n → Bool) : Fin n → α :=
  fun k => bval α (mB k)

/-- Land-sea mask of setup_mesh (lines 89 to 91): all ones, then the last
column (msk[:, -1] = 0) and the last row (msk[-1, :] = 0) are land.
Flattened C-order entry k is ocean exactly when its column k % nx and its
row k / nx avoid the last column and row. -/
def msk (nx ny : ℕ) : Fin (nx * ny) → Bool :=
  fun k => decide ((k : ℕ) % nx < nx - 1) && decide ((k : ℕ) / nx < ny - 1)

/-!
Wet-point classification of initialize_matrix, lines 149 to 151.
ukeep = self.msk.flatten() * self.IE * self.msk.flatten() evaluates left
to right: the product of the 1-D numpy array with the sparse matrix
delegates to the sparse __rmul__, which computes the row-vector times
matrix product (transpose-matvec), and the result is then multiplied
elementwise with the second msk.flatten().  That is exactly
Matrix.vecMul below.  vkeep is the same with IN, and hkeep is the mask
itself.
-/

/-- ukeep = msk.flatten() * IE * msk.flatten() (line 149). -/
def ukeepV (α : Type) [Field α] (nx ny : ℕ) (mB : Fin (nx * ny) → Bool) :
    Fin (nx * ny) → α :=
  fun l => Matrix.vecMul (mskv α mB) (IEmat nx ny α) l * mskv α mB l

/-- vkeep = msk.flatten() * IN * msk.flatten() (line 150). -/
def vkeepV (α : Type) [Field α] (nx ny : ℕ) (mB : Fin (nx * ny) → Bool) :
    Fin (nx * ny) → α :=
  fun l => Matrix.vecMul (mskv α mB) (INmat nx ny α) l * mskv α mB l

/-- hkeep = msk.flatten() (line 151). -/
def hkeepV (α : Type) [Field α] (nx ny : ℕ) (mB : Fin (nx * ny) → Bool) :
    Fin (nx * ny) → α :=
  mskv α mB

/-- keep = np.hstack([ukeep, vkeep, hkeep]) (line 152). -/
def keepV (α : Type) [Field α] (nx ny : ℕ) (mB : Fin (nx * ny) → Bool) :
    Fin (3 * (nx * ny)) → α :=
  fun j =>
    if h : (j : ℕ) < nx * ny then ukeepV α nx ny mB ⟨(j : ℕ), h⟩
    else if h2 : (j : ℕ) < 2 * (nx * ny) then
      vkeepV α nx ny mB ⟨(j : ℕ) - nx * ny, by omega⟩
    else
      hkeepV α nx ny mB ⟨(j : ℕ) - 2 * (nx * ny), by
        have h3 := j.isLt; omega⟩

/-- Whether a keep entry is nonzero; np.nonzero tests the float entries
of keep against zero (line 153). -/
def keepNZ (nx ny : ℕ) (mB : Fin (nx * ny) → Bool) : Fin (3 * (nx * ny)) → Bool :=
  fun j => decide (keepV ℚ nx ny mB j ≠ 0)

/-- ikeep = np.nonzero(keep)[0] (line 153): the indices with nonzero keep
entry, in increasing order. -/
def ikeepL (nx ny : ℕ) (mB : Fin (nx * ny) → Bool) : List (Fin (3 * (nx * ny))) :=
  (List.finRange (3 * (nx * ny))).filter (keepNZ nx ny mB)

/-- Number of wet (kept) degrees of freedom. -/
def nwet (nx ny : ℕ) (mB : Fin (nx * ny) → Bool) : ℕ := (ikeepL nx ny mB).length

/-- The wet-index list as a map from reduced positions to full indices. -/
def ikG (nx ny : ℕ) (mB : Fin (nx * ny) → Bool) :
    Fin (nwet nx ny mB) → Fin (3 * (nx * ny)) :=
  fun t => (ikeepL nx ny mB).get t

/-- Per-entry wet flags for the u field: np.nonzero(ukeep) (line 160). -/
def ukB (nx ny : ℕ) (mB : Fin (nx * ny) → Bool) : Fin (nx * ny) → Bool :=
  fun j => decide (ukeepV ℚ nx ny mB j ≠ 0)

/-- Per-entry wet flags for the v field: np.nonzero(vkeep) (line 161). -/
def vkB (nx ny : ℕ) (mB : Fin (nx * ny) → Bool) : Fin (nx * ny) → Bool :=
  fun j => decide (vkeepV ℚ nx ny mB j ≠ 0)

/-- Per-entry wet flags for the h field: np.nonzero(hkeep) (line 159). -/
def hkB (nx ny : ℕ) (mB : Fin (nx * ny) → Bool) : Fin (nx * ny) → Bool :=
  fun j => decide (hkeepV ℚ nx ny mB j ≠ 0)

/-!
The boundary-masked divergence hDIV of line 114:
hDIV = (1/(dx*dy)) * hstack([dy*(I-IW)*d0(msk)*d0(IE*msk.flatten()),
                             dx*(I-IS)*d0(msk)*d0(IN*msk.flatten())]).
Here IE*msk.flatten() is a sparse matrix times a 1-D array, i.e. the
ordinary matrix-vector product Matrix.mulVec.
-/

/-- Left (u) block of hDIV. -/
def hDIVu (nx ny : ℕ) (α : Type) [Field α] (dx dy : α) (mB : Fin (nx * ny) → Bool) :
    Matrix (Fin (nx * ny)) (Fin (nx * ny)) α :=
  (1 / (dx * dy)) •
    (dy • ((1 - IWmat nx ny α) * d0 (mskv α mB) *
      d0 (Matrix.mulVec (IEmat nx ny α) (mskv α mB))))

/-- Right (v) block of hDIV. -/
def hDIVv (nx ny : ℕ) (α : Type) [Field α] (dx dy : α) (mB : Fin (nx * ny) → Bool) :
    Matrix (Fin (nx * ny)) (Fin (nx * ny)) α :=
  (1 / (dx * dy)) •
    (dx • ((1 - ISmat nx ny α) * d0 (mskv α mB) *
      d0 (Matrix.mulVec (INmat nx ny α) (mskv α mB))))

/-- hDIV (line 114): horizontal stack of the u block and the v block. -/
def hDIVmat (nx ny : ℕ) (α : Type) [Field α] (dx dy : α)
    (mB : Fin (nx * ny) → Bool) :
    Matrix (Fin (nx * ny)) (Fin (2 * (nx * ny))) α :=
  fun i j =>
    if h : (j : ℕ) < nx * ny then hDIVu nx ny α dx dy mB i ⟨(j : ℕ), h⟩
    else hDIVv nx ny α dx dy mB i ⟨(j : ℕ) - nx * ny, by
      have h2 := j.isLt; omega⟩

/-!
Running state of the model over the reals.  A is the reduced implicit
matrix that was handed to the factorization at setup (the matrix the
cached closure self.solve refers to); B is the stored reduced explicit
matrix self.B; solve is the cached factorized solver; s, sbig, u, v, h
are the state vectors; ik is the saved wet-index map self.ikeep and
uk/vk/hk are the saved per-field wet flags self.iu, self.iv, self.ih.
-/

structure St (α : Type) (n k : ℕ) where
  A : Matrix (Fin k) (Fin k) α
  B : Matrix (Fin k) (Fin k) α
  solve : (Fin k → α) → Fin k → α
  s : Fin k → α
  sbig : Fin (3 * n) → α
  ik : Fin k → Fin (3 * n)
  uk : Fin n → Bool
  vk : Fin n → Bool
  hk : Fin n → Bool
  u : Fin n → α
  v : Fin n → α
  h : Fin n → α

/-- Fancy assignment sbig[ikeep] = s (line 191): positions hit by the
index map receive the new reduced values, all other positions keep their
previous value. -/
def scatter {α : Type} {N k : ℕ} (ik : Fin k → Fin N) (sv : Fin k → α) (base : Fin N → α) :
    Fin N → α :=
  fun idx =>
    match (List.finRange k).find? (fun t => decide (ik t = idx)) with
    | some t => sv t
    | none => base idx

/-- Position of u entry j inside the stacked 3n vector (block 0). -/
def uBig {n : ℕ} (j : Fin n) : Fin (3 * n) := ⟨(j : ℕ), by have := j.isLt; omega⟩

/-- Position of v entry j inside the stacked 3n vector (block 1). -/
def vBig {n : ℕ} (j : Fin n) : Fin (3 * n) := ⟨n + (j : ℕ), by have := j.isLt; omega⟩

/-- Position of h entry j inside the stacked 3n vector (block 2). -/
def hBig {n : ℕ} (j : Fin n) : Fin (3 * n) := ⟨2 * n + (j : ℕ), by have := j.isLt; omega⟩

/-- One call of SWM.time_step (lines 187 to 197): s = solve(B * s);
sbig[ikeep] = s; u[iu] = sbig[iubig]; v[iv] = sbig[ivbig];
h[ih] = sbig[ihbig].  The snapshots U, V, Z are numpy reshape views of
u, v, h and are modelled as the derived functions Uof, Vof, Zof. -/
def time_step {α : Type} [Field α] {n k : ℕ} (st : St α n k) : St α n k :=
  let s' := st.solve (Matrix.mulVec st.B st.s)
  let sbig' := scatter st.ik s' st.sbig
  { st with
    s := s'
    sbig := sbig'
    u := fun j => if st.uk j then sbig' (uBig j) else st.u j
    v := fun j => if st.vk j then sbig' (vBig j) else st.v j
    h := fun j => if st.hk j then sbig' (hBig j) else st.h j }

/-- Flat index of the cell in row r, column c of a (ny, nx) field. -/
def flatF {nx ny : ℕ} (r : Fin ny) (c : Fin nx) : Fin (nx * ny) :=
  ⟨(c : ℕ) + nx * (r : ℕ), add_mul_lt c.isLt r.isLt⟩

/-- Snapshot U = self.u.reshape(self.msk.shape). -/
def Uof {α : Type} (nx ny : ℕ) {k : ℕ} (st : St α (nx * ny) k) : Fin ny → Fin nx → α :=
  fun r c => st.u (flatF r c)

/-- Snapshot V = self.v.reshape(self.msk.shape). -/
def Vof {α : Type} (nx ny : ℕ) {k : ℕ} (st : St α (nx * ny) k) : Fin ny → Fin nx → α :=
  fun r c => st.v (flatF r c)

/-- Snapshot Z = self.h.reshape(self.msk.shape). -/
def Zof {α : Type} (nx ny : ℕ) {k : ℕ} (st : St α (nx * ny) k) : Fin ny → Fin nx → α :=
  fun r c => st.h (flatF r c)

/-- Initial thickness h0 of initial_conditions (line 51):
h0 = 10*exp(-((Xh - Lx/2)^2 + (Yh - Ly/2)^2)/Rd^2), flattened C-order,
with Xh[r, c] = (c + 1/2) * dx and Yh[r, c] = (r + 1/2) * dy from
setup_mesh, dx = Lx/nx, dy = Ly/ny. -/
noncomputable def h0f (nx ny : ℕ) (Lx Ly Rd : ℝ) : Fin (nx * ny) → ℝ :=
  fun p =>
    let c : ℕ := (p : ℕ) % nx
    let r : ℕ := (p : ℕ) / nx
    10 * Real.exp (-((((c : ℝ) + 1 / 2) * (Lx / (nx : ℝ)) - Lx / 2) ^ 2 +
      (((r : ℝ) + 1 / 2) * (Ly / (ny : ℝ)) - Ly / 2) ^ 2) / Rd ^ 2)

/-- Initial stacked state sbig = np.hstack([u0.flatten(), v0.flatten(),
h0.flatten()]) (line 132), with u0 = v0 = 0 (lines 52 to 53). -/
noncomputable def sbig0 (nx ny : ℕ) (Lx Ly Rd : ℝ) : Fin (3 * (nx * ny)) → ℝ :=
  fun j =>
    if _h : (j : ℕ) < nx * ny then 0
    else if _h2 : (j : ℕ) < 2 * (nx * ny) then 0
    else h0f nx ny Lx Ly Rd ⟨(j : ℕ) - 2 * (nx * ny), by
      have h3 := j.isLt; omega⟩

/-- dt = 0.5 * self.dx / self.cg (line 167); the float literal 0.5 is
the exact rational 1/2. -/
def dtVal {α : Type} [Field α] (dx cg : α) : α := 1 / 2 * dx / cg

/-- A = I + (dt/2) * L on the full 3n space (lines 168 to 169). -/
def Afull {α : Type} [Field α] {N : ℕ} (Lm : Matrix (Fin N) (Fin N) α) (dt : α) :
    Matrix (Fin N) (Fin N) α :=
  1 + (dt / 2) • Lm

/-- B = I - (dt/2) * L on the full 3n space (line 170). -/
def Bfull {α : Type} [Field α] {N : ℕ} (Lm : Matrix (Fin N) (Fin N) α) (dt : α) :
    Matrix (Fin N) (Fin N) α :=
  1 - (dt / 2) • Lm

/-- A = A[ikeep, :] (line 171): restriction to wet rows. -/
def Arows {α : Type} [Field α] (nx ny : ℕ) (mB : Fin (nx * ny) → Bool)
    (Lm : Matrix (Fin (3 * (nx * ny))) (Fin (3 * (nx * ny))) α) (dt : α) :
    Matrix (Fin (nwet nx ny mB)) (Fin (3 * (nx * ny))) α :=
  fun i j => Afull Lm dt (ikG nx ny mB i) j

/-- A = A[:, ikeep] (line 172): further restriction to wet columns.
This is the reduced matrix passed to linalg.factorized. -/
def AredM {α : Type} [Field α] (nx ny : ℕ) (mB : Fin (nx * ny) → Bool)
    (Lm : Matrix (Fin (3 * (nx * ny))) (Fin (3 * (nx * ny))) α) (dt : α) :
    Matrix (Fin (nwet nx ny mB)) (Fin (nwet nx ny mB)) α :=
  fun i j => Arows nx ny mB Lm dt i (ikG nx ny mB j)

/-- B = B[ikeep, :] (line 173). -/
def Brows {α : Type} [Field α] (nx ny : ℕ) (mB : Fin (nx * ny) → Bool)
    (Lm : Matrix (Fin (3 * (nx * ny))) (Fin (3 * (nx * ny))) α) (dt : α) :
    Matrix (Fin (nwet nx ny mB)) (Fin (3 * (nx * ny))) α :=
  fun i j => Bfull Lm dt (ikG nx ny mB i) j

/-- self.B = B[:, ikeep] (line 174): the stored reduced explicit matrix. -/
def BredM {α : Type} [Field α] (nx ny : ℕ) (mB : Fin (nx * ny) → Bool)
    (Lm : Matrix (Fin (3 * (nx * ny))) (Fin (3 * (nx * ny))) α) (dt : α) :
    Matrix (Fin (nwet nx ny mB)) (Fin (nwet nx ny mB)) α :=
  fun i j => Brows nx ny mB Lm dt i (ikG nx ny mB j)

/-- Dimension of the reduced matrix A that line 178 passes to
linalg.factorized.  initialize_matrix is straight-line code: it performs
no emptiness check on ikeep and defines no ConfigurationError, so the
factorization call is reached for every mask, including masks with zero
wet degrees of freedom. -/
def factorDim (nx ny : ℕ) (mB : Fin (nx * ny) → Bool) : ℕ := nwet nx ny mB

/-- State produced by SWM.initialize_matrix (lines 144 to 185) given the
assembled operator L, the mask value, the physical scales and the
injected factorized solver for the reduced A: s = sbig[nonzero(keep)],
A and B are the row-and-column restricted Crank-Nicolson matrices with
dt = 0.5*dx/cg and dx = Lx/nx, and u, v, h are fresh zero arrays. -/
noncomputable def swm_init (nx ny : ℕ) (mB : Fin (nx * ny) → Bool) (Lx Ly Rd cg : ℝ)
    (Lm : Matrix (Fin (3 * (nx * ny))) (Fin (3 * (nx * ny))) ℝ)
    (solveFn : (Fin (nwet nx ny mB) → ℝ) → Fin (nwet nx ny mB) → ℝ) :
    St ℝ (nx * ny) (nwet nx ny mB) :=
  { A := AredM nx ny mB Lm (dtVal (Lx / (nx : ℝ)) cg)
    B := BredM nx ny mB Lm (dtVal (Lx / (nx : ℝ)) cg)
    solve := solveFn
    s := fun t => sbig0 nx ny Lx Ly Rd (ikG nx ny mB t)
    sbig := sbig0 nx ny Lx Ly Rd
    ik := ikG nx ny mB
    uk := ukB nx ny mB
    vk := vkB nx ny mB
    hk := hkB nx ny mB
    u := fun _ => 0
    v := fun _ => 0
    h := fun _ => 0 }

/-- The initial thickness field as a (ny, nx) snapshot, for comparison
with the Z snapshot. -/
noncomputable def h0grid (nx ny : ℕ) (Lx Ly Rd : ℝ) : Fin ny → Fin nx → ℝ :=
  fun r c => h0f nx ny Lx Ly Rd (flatF r c)

/-!
Definitions written from the wording of the claims (not from the
source), used to compare the claimed geometric meaning of the shift
operators and of the wet classification with what the code computes.
-/

/-- Modelled from the claim wording: the eastward neighbor of flat cell
k is one step in the x direction (the column) of the (ny, nx) layout,
cyclically. -/
def specEastIdx (nx k : ℕ) : ℕ := (k % nx + 1) % nx + nx * (k / nx)

theorem specEastIdx_lt {nx ny k : ℕ} (hk : k < nx * ny) :
    specEastIdx nx k < nx * ny := by
  obtain ⟨hx, _⟩ := pos_of_lt_mul hk
  exact add_mul_lt (Nat.mod_lt _ hx) (div_lt_of_lt_mul hk)

/-- Eastward neighbor as a map on flat indices. -/
def specEastF {nx ny : ℕ} (k : Fin (nx * ny)) : Fin (nx * ny) :=
  ⟨specEastIdx nx (k : ℕ), specEastIdx_lt k.isLt⟩

/-- Modelled from the claim wording: the northward neighbor of flat cell
k is one step in the y direction (the row) of the (ny, nx) layout,
cyclically. -/
def specNorthIdx (nx ny k : ℕ) : ℕ := k % nx + nx * ((k / nx + 1) % ny)

theorem specNorthIdx_lt {nx ny k : ℕ} (hk : k < nx * ny) :
    specNorthIdx nx ny k < nx * ny := by
  obtain ⟨hx, hy⟩ := pos_of_lt_mul hk
  exact add_mul_lt (Nat.mod_lt _ hx) (Nat.mod_lt _ hy)

/-- Northward neighbor as a map on flat indices. -/
def specNorthF {nx ny : ℕ} (k : Fin (nx * ny)) : Fin (nx * ny) :=
  ⟨specNorthIdx nx ny (k : ℕ), specNorthIdx_lt k.isLt⟩

/-- Modelled from the claim wording: a u entry is active when its own
cell and its eastward neighbor cell are ocean. -/
def specUwet (nx ny : ℕ) (mB : Fin (nx * ny) → Bool) (k : Fin (nx * ny)) : Bool :=
  mB k && mB (specEastF k)

/-- Modelled from the claim wording: a v entry is active when its own
cell and its northward neighbor cell are ocean. -/
def specVwet (nx ny : ℕ) (mB : Fin (nx * ny) → Bool) (k : Fin (nx * ny)) : Bool :=
  mB k && mB (specNorthF k)

/-- Modelled from the claim wording of C7: which entries of the stacked
length-2n velocity vector are active (wet). -/
def specVelWet (nx ny : ℕ) (mB : Fin (nx * ny) → Bool)
    (j : Fin (2 * (nx * ny))) : Bool :=
  if h : (j : ℕ) < nx * ny then specUwet nx ny mB ⟨(j : ℕ), h⟩
  else specVwet nx ny mB ⟨(j : ℕ) - nx * ny, by have h2 := j.isLt; omega⟩

/-!
update_params (lines 60 to 69).  The branch on f0 == 0 at line 65 reads
the bare name H at line 66; no global H exists in the module, so that
branch raises NameError at run time instead of computing
Rd^2 * beta / self.H.  The float values of f0, beta, Rd, H are modelled
as rationals (every float is a rational), which keeps the branch test
decidable.
-/

/-- The runtime error raised by line 66: the name H is not defined. -/
inductive NameErr where
  | bareH
  deriving DecidableEq

/-- gp as computed by lines 65 to 68: (f0*Rd)^2 / self.H when f0 is not
zero, and a NameError (bare undefined H) when f0 = 0. -/
def gp_calc (f0 beta Rd H : ℚ) : Except NameErr ℚ :=
  if f0 = 0 then Except.error NameErr.bareH else Except.ok ((f0 * Rd) ^ 2 / H)

/-- cg = sqrt(gp * H) (line 69). -/
noncomputable def cg_calc (gp H : ℚ) : ℝ := Real.sqrt ((gp : ℝ) * (H : ℝ))

/-!
Helper lemmas: the shift index maps are mutually inverse permutations of
the flat index range, the shift matrices act by precomposition with
them, and the keep vectors have an equivalent boolean description.
-/

theorem comp_mod {nx c m : ℕ} (hc : c < nx) : (c + nx * m) % nx = c := by
  rw [Nat.add_mul_mod_self_left, Nat.mod_eq_of_lt hc]

theorem comp_div {nx c m : ℕ} (hx : 0 < nx) (hc : c < nx) :
    (c + nx * m) / nx = m := by
  rw [Nat.add_mul_div_left _ _ hx, Nat.div_eq_of_lt hc, Nat.zero_add]

theorem iw_ie {nx ny k : ℕ} (hk : k < nx * ny) :
    iwIdx nx ny (ieIdx nx ny k) = k := by
  obtain ⟨hx, hy⟩ := pos_of_lt_mul hk
  have hc : k % nx < nx := Nat.mod_lt _ hx
  have hr : k / nx < ny := div_lt_of_lt_mul hk
  unfold ieIdx iwIdx
  rw [comp_mod hc, comp_div hx hc]
  have h1 : ((k / nx + 1) % ny + (ny - 1)) % ny = k / nx := by
    rw [Nat.mod_add_mod]
    have h2 : k / nx + 1 + (ny - 1) = k / nx + ny := by omega
    rw [h2, Nat.add_mod_right, Nat.mod_eq_of_lt hr]
  rw [h1, Nat.mod_add_div]

theorem ie_iw {nx ny k : ℕ} (hk : k < nx * ny) :
    ieIdx nx ny (iwIdx nx ny k) = k := by
  obtain ⟨hx, hy⟩ := pos_of_lt_mul hk
  have hc : k % nx < nx := Nat.mod_lt _ hx
  have hr : k / nx < ny := div_lt_of_lt_mul hk
  unfold ieIdx iwIdx
  rw [comp_mod hc, comp_div hx hc]
  have h1 : ((k / nx + (ny - 1)) % ny + 1) % ny = k / nx := by
    rw [Nat.mod_add_mod]
    have h2 : k / nx + (ny - 1) + 1 = k / nx + ny := by omega
    rw [h2, Nat.add_mod_right, Nat.mod_eq_of_lt hr]
  rw [h1, Nat.mod_add_div]

theorem is_in {nx ny k : ℕ} (hk : k < nx * ny) :
    isIdx nx ny (inIdx nx ny k) = k := by
  obtain ⟨hx, hy⟩ := pos_of_lt_mul hk
  have hc : k % nx < nx := Nat.mod_lt _ hx
  have hc1 : (k % nx + 1) % nx < nx := Nat.mod_lt _ hx
  unfold inIdx isIdx
  rw [comp_mod hc1, comp_div hx hc1]
  have h1 : ((k % nx + 1) % nx + (nx - 1)) % nx = k % nx := by
    rw [Nat.mod_add_mod]
    have h2 : k % nx + 1 + (nx - 1) = k % nx + nx := by omega
    rw [h2, Nat.add_mod_right, Nat.mod_eq_of_lt hc]
  rw [h1, Nat.mod_add_div]

theorem in_is {nx ny k : ℕ} (hk : k < nx * ny) :
    inIdx nx ny (isIdx nx ny k) = k := by
  obtain ⟨hx, hy⟩ := pos_of_lt_mul hk
  have hc : k % nx < nx := Nat.mod_lt _ hx
  have hc1 : (k % nx + (nx - 1)) % nx < nx := Nat.mod_lt _ hx
  unfold inIdx isIdx
  rw [comp_mod hc1, comp_div hx hc1]
  have h1 : ((k % nx + (nx - 1)) % nx + 1) % nx = k % nx := by
    rw [Nat.mod_add_mod]
    have h2 : k % nx + (nx - 1) + 1 = k % nx + nx := by omega
    rw [h2, Nat.add_mod_right, Nat.mod_eq_of_lt hc]
  rw [h1, Nat.mod_add_div]

theorem sum_indicator_mul {α : Type} [Field α] {n : ℕ} (x : Fin n → α) (c : Fin n) :
    (∑ l : Fin n, (if l = c then (1 : α) else 0) * x l) = x c := by
  simp [ite_mul, Finset.sum_ite_eq']

theorem sum_mul_indicator {α : Type} [Field α] {n : ℕ} (v : Fin n → α) (c : Fin n) :
    (∑ k : Fin n, v k * (if k = c then (1 : α) else 0)) = v c := by
  simp [mul_ite, Finset.sum_ite_eq']

/-- IE acts on a flat vector by reading the entry at the shifted index. -/
theorem mulVec_IEmat {α : Type} [Field α] {nx ny : ℕ} (x : Fin (nx * ny) → α)
    (k : Fin (nx * ny)) :
    Matrix.mulVec (IEmat nx ny α) x k = x ⟨ieIdx nx ny (k : ℕ), ieIdx_lt k.isLt⟩ := by
  have hcond : ∀ l : Fin (nx * ny),
      ((l : ℕ) = ieIdx nx ny (k : ℕ)) ↔
        (l = (⟨ieIdx nx ny (k : ℕ), ieIdx_lt k.isLt⟩ : Fin (nx * ny))) := by
    intro l
    constructor
    · exact fun h => Fin.ext h
    · intro h
      subst h
      rfl
  simp only [Matrix.mulVec, Matrix.dotProduct, IEmat]
  simp_rw [hcond]
  exact sum_indicator_mul x _

/-- IN acts on a flat vector by reading the entry at the shifted index. -/
theorem mulVec_INmat {α : Type} [Field α] {nx ny : ℕ} (x : Fin (nx * ny) → α)
    (k : Fin (nx * ny)) :
    Matrix.mulVec (INmat nx ny α) x k = x ⟨inIdx nx ny (k : ℕ), inIdx_lt k.isLt⟩ := by
  have hcond : ∀ l : Fin (nx * ny),
      ((l : ℕ) = inIdx nx ny (k : ℕ)) ↔
        (l = (⟨inIdx nx ny (k : ℕ), inIdx_lt k.isLt⟩ : Fin (nx * ny))) := by
    intro l
    constructor
    · exact fun h => Fin.ext h
    · intro h
      subst h
      rfl
  simp only [Matrix.mulVec, Matrix.dotProduct, INmat]
  simp_rw [hcond]
  exact sum_indicator_mul x _

/-- The row-vector times IE product reads the entry at the inverse
(southward) shift. -/
theorem vecMul_IEmat {α : Type} [Field α] {nx ny : ℕ} (v : Fin (nx * ny) → α)
    (l : Fin (nx * ny)) :
    Matrix.vecMul v (IEmat nx ny α) l = v ⟨iwIdx nx ny (l : ℕ), iwIdx_lt l.isLt⟩ := by
  have hcond : ∀ kk : Fin (nx * ny),
      ((l : ℕ) = ieIdx nx ny (kk : ℕ)) ↔
        (kk = (⟨iwIdx nx ny (l : ℕ), iwIdx_lt l.isLt⟩ : Fin (nx * ny))) := by
    intro kk
    constructor
    · intro h
      apply Fin.ext
      show (kk : ℕ) = iwIdx nx ny (l : ℕ)
      rw [h, iw_ie kk.isLt]
    · intro h
      subst h
      show (l : ℕ) = ieIdx nx ny (iwIdx nx ny (l : ℕ))
      exact (ie_iw l.isLt).symm
  simp only [Matrix.vecMul, Matrix.dotProduct, IEmat]
  simp_rw [hcond]
  exact sum_mul_indicator v _

/-- The row-vector times IN product reads the entry at the inverse
(westward) shift. -/
theorem vecMul_INmat {α : Type} [Field α] {nx ny : ℕ} (v : Fin (nx * ny) → α)
    (l : Fin (nx * ny)) :
    Matrix.vecMul v (INmat nx ny α) l = v ⟨isIdx nx ny (l : ℕ), isIdx_lt l.isLt⟩ := by
  have hcond : ∀ kk : Fin (nx * ny),
      ((l : ℕ) = inIdx nx ny (kk : ℕ)) ↔
        (kk = (⟨isIdx nx ny (l : ℕ), isIdx_lt l.isLt⟩ : Fin (nx * ny))) := by
    intro kk
    constructor
    · intro h
      apply Fin.ext
      show (kk : ℕ) = isIdx nx ny (l : ℕ)
      rw [h, is_in kk.isLt]
    · intro h
      subst h
      show (l : ℕ) = inIdx nx ny (isIdx nx ny (l : ℕ))
      exact (in_is l.isLt).symm
  simp only [Matrix.vecMul, Matrix.dotProduct, INmat]
  simp_rw [hcond]
  exact sum_mul_indicator v _

theorem bval_and {α : Type} [Field α] (a b : Bool) :
    bval α a * bval α b = bval α (a && b) := by
  cases a <;> cases b <;> simp [bval]

theorem decide_bval_ne (b : Bool) : decide (bval ℚ b ≠ 0) = b := by
  cases b <;> simp [bval]

/-- Boolean description of ukeep, proven below: a u entry is kept when
its own cell and its southward neighbor are ocean (the southward shift
iwIdx is the inverse of the northward shift applied by IE inside the
row-vector product of line 149). -/
def ukeepB (nx ny : ℕ) (mB : Fin (nx * ny) → Bool) (l : Fin (nx * ny)) : Bool :=
  mB ⟨iwIdx nx ny (l : ℕ), iwIdx_lt l.isLt⟩ && mB l

/-- Boolean description of vkeep, proven below: a v entry is kept when
its own cell and its westward neighbor are ocean. -/
def vkeepB (nx ny : ℕ) (mB : Fin (nx * ny) → Bool) (l : Fin (nx * ny)) : Bool :=
  mB ⟨isIdx nx ny (l : ℕ), isIdx_lt l.isLt⟩ && mB l

/-- Boolean description of keep. -/
def keepB (nx ny : ℕ) (mB : Fin (nx * ny) → Bool) : Fin (3 * (nx * ny)) → Bool :=
  fun j =>
    if h : (j : ℕ) < nx * ny then ukeepB nx ny mB ⟨(j : ℕ), h⟩
    else if h2 : (j : ℕ) < 2 * (nx * ny) then
      vkeepB nx ny mB ⟨(j : ℕ) - nx * ny, by omega⟩
    else mB ⟨(j : ℕ) - 2 * (nx * ny), by have h3 := j.isLt; omega⟩

theorem ukeepV_bval {α : Type} [Field α] {nx ny : ℕ} (mB : Fin (nx * ny) → Bool)
    (l : Fin (nx * ny)) : ukeepV α nx ny mB l = bval α (ukeepB nx ny mB l) := by
  unfold ukeepV ukeepB
  rw [vecMul_IEmat]
  exact bval_and _ _

theorem vkeepV_bval {α : Type} [Field α] {nx ny : ℕ} (mB : Fin (nx * ny) → Bool)
    (l : Fin (nx * ny)) : vkeepV α nx ny mB l = bval α (vkeepB nx ny mB l) := by
  unfold vkeepV vkeepB
  rw [vecMul_INmat]
  exact bval_and _ _

theorem keepV_bval {α : Type} [Field α] {nx ny : ℕ} (mB : Fin (nx * ny) → Bool)
    (j : Fin (3 * (nx * ny))) : keepV α nx ny mB j = bval α (keepB nx ny mB j) := by
  unfold keepV keepB
  split
  · exact ukeepV_bval mB _
  · split
    · exact vkeepV_bval mB _
    · rfl

theorem keepNZ_eq_keepB (nx ny : ℕ) (mB : Fin (nx * ny) → Bool) :
    keepNZ nx ny mB = keepB nx ny mB := by
  funext j
  unfold keepNZ
  rw [keepV_bval, decide_bval_ne]

theorem ukB_eq_ukeepB (nx ny : ℕ) (mB : Fin (nx * ny) → Bool) :
    ukB nx ny mB = ukeepB nx ny mB := by
  funext j
  unfold ukB
  rw [ukeepV_bval, decide_bval_ne]

theorem vkB_eq_vkeepB (nx ny : ℕ) (mB : Fin (nx * ny) → Bool) :
    vkB nx ny mB = vkeepB nx ny mB := by
  funext j
  unfold vkB
  rw [vkeepV_bval, decide_bval_ne]

theorem hkB_eq (nx ny : ℕ) (mB : Fin (nx * ny) → Bool) : hkB nx ny mB = mB := by
  funext j
  unfold hkB hkeepV
  exact decide_bval_ne _

theorem ikeepL_eq_filter (nx ny : ℕ) (mB : Fin (nx * ny) → Bool) :
    ikeepL nx ny mB = (List.finRange (3 * (nx * ny))).filter (keepB nx ny mB) := by
  unfold ikeepL
  rw [keepNZ_eq_keepB]

/-!
Behavior of the fancy-assignment model and of iterated time steps.
-/

theorem find?_eq_some_of_unique {β : Type} (p : β → Bool) :
    ∀ (l : List β) (a : β), a ∈ l → p a = true →
      (∀ b ∈ l, p b = true → b = a) → l.find? p = some a := by
  intro l
  induction l with
  | nil =>
    intro a ha
    simp at ha
  | cons b l ih =>
    intro a ha hpa huniq
    by_cases hb : p b = true
    · have hba : b = a := huniq b (List.mem_cons_self b l) hb
      subst hba
      simp [List.find?_cons, hb]
    · have hab : a ∈ l := by
        rcases List.mem_cons.mp ha with hup | hup
        · exact absurd (hup ▸ hpa) hb
        · exact hup
      have hres := ih a hab hpa (fun c hc hpc => huniq c (List.mem_cons_of_mem b hc) hpc)
      rw [List.find?_cons_of_neg _ hb]
      exact hres

theorem scatter_apply_get {α : Type} {N k : ℕ} {ik : Fin k → Fin N}
    (hinj : Function.Injective ik) (sv : Fin k → α) (base : Fin N → α) (t : Fin k) :
    scatter ik sv base (ik t) = sv t := by
  unfold scatter
  rw [find?_eq_some_of_unique _ (List.finRange k) t (List.mem_finRange t)
    (by simp) (fun b _ hb => hinj (by simpa using hb))]

theorem scatter_apply_of_ne {α : Type} {N k : ℕ} {ik : Fin k → Fin N}
    {idx : Fin N} (hne : ∀ t, ik t ≠ idx) (sv : Fin k → α) (base : Fin N → α) :
    scatter ik sv base idx = base idx := by
  unfold scatter
  rw [List.find?_eq_none.mpr (by intro x _ ; simp [hne x])]

theorem time_step_s {α : Type} [Field α] {n k : ℕ} (st : St α n k) :
    (time_step st).s = st.solve (Matrix.mulVec st.B st.s) := rfl

theorem time_step_sbig {α : Type} [Field α] {n k : ℕ} (st : St α n k) :
    (time_step st).sbig =
      scatter st.ik (st.solve (Matrix.mulVec st.B st.s)) st.sbig := rfl

theorem time_step_A {α : Type} [Field α] {n k : ℕ} (st : St α n k) :
    (time_step st).A = st.A := rfl

theorem time_step_B {α : Type} [Field α] {n k : ℕ} (st : St α n k) :
    (time_step st).B = st.B := rfl

theorem time_step_solve {α : Type} [Field α] {n k : ℕ} (st : St α n k) :
    (time_step st).solve = st.solve := rfl

theorem time_step_ik {α : Type} [Field α] {n k : ℕ} (st : St α n k) :
    (time_step st).ik = st.ik := rfl

theorem iterate_fields {α : Type} [Field α] {n k : ℕ} (st : St α n k) (m : ℕ) :
    ((time_step^[m]) st).A = st.A ∧ ((time_step^[m]) st).B = st.B ∧
      ((time_step^[m]) st).solve = st.solve ∧ ((time_step^[m]) st).ik = st.ik := by
  induction m with
  | zero => exact ⟨rfl, rfl, rfl, rfl⟩
  | succ m ih =>
    rw [Function.iterate_succ_apply']
    exact ⟨(time_step_A _).trans ih.1, (time_step_B _).trans ih.2.1,
      (time_step_solve _).trans ih.2.2.1, (time_step_ik _).trans ih.2.2.2⟩

theorem iterate_sbig_dry {α : Type} [Field α] {n k : ℕ} (st : St α n k) (m : ℕ)
    (idx : Fin (3 * n)) (hne : ∀ t, st.ik t ≠ idx) :
    ((time_step^[m]) st).sbig idx = st.sbig idx := by
  induction m with
  | zero => rfl
  | succ m ih =>
    rw [Function.iterate_succ_apply']
    have hik := (iterate_fields st m).2.2.2
    have hne2 : ∀ t, ((time_step^[m]) st).ik t ≠ idx := by
      rw [hik]
      exact hne
    calc (time_step ((time_step^[m]) st)).sbig idx
        = ((time_step^[m]) st).sbig idx := by
          rw [time_step_sbig, scatter_apply_of_ne hne2]
      _ = st.sbig idx := ih

theorem sbig0_uv_zero (nx ny : ℕ) (Lx Ly Rd : ℝ) (idx : Fin (3 * (nx * ny)))
    (h : (idx : ℕ) < 2 * (nx * ny)) : sbig0 nx ny Lx Ly Rd idx = 0 := by
  unfold sbig0
  by_cases h1 : (idx : ℕ) < nx * ny
  · rw [dif_pos h1]
  · rw [dif_neg h1, dif_pos h]

/-!
Concrete instances used by the claim theorems below.
-/

/-- A minimal one-cell running state used to instantiate the time-step
theorem: the reduced system has one degree of freedom, the factorized
matrix is the identity and the cached solver is the identity function. -/
def wSt : St ℚ 1 1 :=
  { A := 1
    B := 1
    solve := fun b => b
    s := fun _ => 0
    sbig := fun _ => 0
    ik := fun _ => ⟨0, by omega⟩
    uk := fun _ => false
    vk := fun _ => false
    hk := fun _ => false
    u := fun _ => 0
    v := fun _ => 0
    h := fun _ => 0 }

/-- Concrete test field on the 3 x 2 grid: the flat coordinate itself. -/
def f32 : Fin (3 * 2) → ℚ := fun p => ((p : ℕ) : ℚ)

/-- Concrete stacked velocity vector on the 2 x 3 grid: the indicator of
the u entry at flat cell 0. -/
def w23 : Fin (2 * (2 * 3)) → ℚ := fun j => if (j : ℕ) = 0 then 1 else 0

/-!
Theorems settling the claims.
-/

/-- C1: one call to time_step replaces the reduced state s by the unique
s2 with A s2 = B s, where A is the matrix whose factorization the cached
solver holds and B is the stored reduced explicit matrix; every iterate
of time_step leaves A, B and the cached solver untouched, so the
factorization made at setup is the one every step reuses and no step
refactors. -/
theorem time_step_is_cached_CN_solve {α : Type} [Field α] {n k : ℕ} (st : St α n k)
    (hs : ∀ b, Matrix.mulVec st.A (st.solve b) = b) :
    Matrix.mulVec st.A ((time_step st).s) = Matrix.mulVec st.B st.s ∧
    (∀ t, Matrix.mulVec st.A t = Matrix.mulVec st.B st.s → t = (time_step st).s) ∧
    (∀ m, ((time_step^[m]) st).A = st.A ∧ ((time_step^[m]) st).B = st.B ∧
      ((time_step^[m]) st).solve = st.solve) := by
  have hAs : Matrix.mulVec st.A ((time_step st).s) = Matrix.mulVec st.B st.s := by
    rw [time_step_s]
    exact hs _
  refine ⟨hAs, ?_, fun m => ⟨(iterate_fields st m).1, (iterate_fields st m).2.1,
    (iterate_fields st m).2.2.1⟩⟩
  intro t ht
  have hsurj : Function.Surjective (Matrix.mulVecLin st.A) := fun b =>
    ⟨st.solve b, by simpa [Matrix.mulVecLin_apply] using hs b⟩
  have hinj : Function.Injective (Matrix.mulVecLin st.A) :=
    LinearMap.injective_iff_surjective.mpr hsurj
  apply hinj
  simp only [Matrix.mulVecLin_apply]
  rw [ht, hAs]

/-- Witness for C1 at a concrete one-cell state whose cached solver is
an exact solver for its matrix. -/
theorem time_step_is_cached_CN_solve_witness :
    (∀ b : Fin 1 → ℚ, Matrix.mulVec wSt.A (wSt.solve b) = b) ∧
    (Matrix.mulVec wSt.A ((time_step wSt).s) = Matrix.mulVec wSt.B wSt.s ∧
      (∀ t, Matrix.mulVec wSt.A t = Matrix.mulVec wSt.B wSt.s → t = (time_step wSt).s) ∧
      (∀ m, ((time_step^[m]) wSt).A = wSt.A ∧ ((time_step^[m]) wSt).B = wSt.B ∧
        ((time_step^[m]) wSt).solve = wSt.solve)) := by
  have hs : ∀ b : Fin 1 → ℚ, Matrix.mulVec wSt.A (wSt.solve b) = b := fun b =>
    Matrix.one_mulVec b
  exact ⟨hs, time_step_is_cached_CN_solve wSt hs⟩

/-- C2: dt = 0.5 dx / cg; on the full 3n space the stepping matrices are
A = I + (dt/2) L and B = I - (dt/2) L entrywise; the reduced matrices
are exactly the full ones restricted to wet rows and wet columns through
the wet-index list; and the state produced by initialization carries the
already-reduced A (the matrix handed to the factorization) and B. -/
theorem cn_matrices_assembled (nx ny : ℕ) (mB : Fin (nx * ny) → Bool)
    (Lm : Matrix (Fin (3 * (nx * ny))) (Fin (3 * (nx * ny))) ℝ)
    (dx cg Lx Ly Rd : ℝ)
    (solveFn : (Fin (nwet nx ny mB) → ℝ) → Fin (nwet nx ny mB) → ℝ) :
    dtVal dx cg = 0.5 * dx / cg ∧
    (∀ p q, Afull Lm (dtVal dx cg) p q =
      (if p = q then (1 : ℝ) else 0) + dtVal dx cg / 2 * Lm p q) ∧
    (∀ p q, Bfull Lm (dtVal dx cg) p q =
      (if p = q then (1 : ℝ) else 0) - dtVal dx cg / 2 * Lm p q) ∧
    (∀ i j, AredM nx ny mB Lm (dtVal dx cg) i j =
      Afull Lm (dtVal dx cg) (ikG nx ny mB i) (ikG nx ny mB j)) ∧
    (∀ i j, BredM nx ny mB Lm (dtVal dx cg) i j =
      Bfull Lm (dtVal dx cg) (ikG nx ny mB i) (ikG nx ny mB j)) ∧
    (swm_init nx ny mB Lx Ly Rd cg Lm solveFn).A =
      AredM nx ny mB Lm (dtVal (Lx / (nx : ℝ)) cg) ∧
    (swm_init nx ny mB Lx Ly Rd cg Lm solveFn).B =
      BredM nx ny mB Lm (dtVal (Lx / (nx : ℝ)) cg) := by
  refine ⟨by unfold dtVal; norm_num, fun p q => ?_, fun p q => ?_,
    fun i j => rfl, fun i j => rfl, rfl, rfl⟩
  · simp [Afull, Matrix.add_apply, Matrix.smul_apply, Matrix.one_apply, smul_eq_mul]
  · simp [Bfull, Matrix.sub_apply, Matrix.smul_apply, Matrix.one_apply, smul_eq_mul]

/-- C3: at the 3 x 3 default-shaped mask, the u entry at flat cell 0 has
its own cell and its eastward neighbor ocean, so the claimed
classification calls it active, but the ukeep vector the code computes
is 0 there (the code keeps a u entry only when its own cell and its
southward neighbor are ocean, and likewise vkeep uses the westward
neighbor); the same cell separates the claimed v classification from
vkeep. -/
theorem wet_classification_differs_from_claim :
    specUwet 3 3 (msk 3 3) ⟨0, by omega⟩ = true ∧
    ukeepV ℚ 3 3 (msk 3 3) ⟨0, by omega⟩ = 0 ∧
    specVwet 3 3 (msk 3 3) ⟨0, by omega⟩ = true ∧
    vkeepV ℚ 3 3 (msk 3 3) ⟨0, by omega⟩ = 0 := by
  refine ⟨by decide, ?_, by decide, ?_⟩
  · rw [ukeepV_bval]
    have h : ukeepB 3 3 (msk 3 3) ⟨0, by omega⟩ = false := by decide
    rw [h]
    rfl
  · rw [vkeepV_bval]
    have h : vkeepB 3 3 (msk 3 3) ⟨0, by omega⟩ = false := by decide
    rw [h]
    rfl

/-- C4: the wet-index list is strictly increasing, has no duplicates,
and writing a reduced vector into the full vector at the wet indices and
reading the wet indices back returns the reduced vector unchanged, for
every mask and every base vector. -/
theorem wet_index_roundtrip (nx ny : ℕ) (mB : Fin (nx * ny) → Bool) :
    List.Pairwise (· < ·) (ikeepL nx ny mB) ∧
    (ikeepL nx ny mB).Nodup ∧
    (∀ (base : Fin (3 * (nx * ny)) → ℝ) (sv : Fin (nwet nx ny mB) → ℝ)
      (t : Fin (nwet nx ny mB)),
      scatter (ikG nx ny mB) sv base (ikG nx ny mB t) = sv t) := by
  have hpw : List.Pairwise (· < ·) (ikeepL nx ny mB) := by
    unfold ikeepL
    exact List.Pairwise.sublist (List.filter_sublist _) (List.pairwise_lt_finRange _)
  have hinj : Function.Injective (ikG nx ny mB) := by
    intro a b hab
    by_contra hne
    have hmono := List.pairwise_iff_get.mp hpw
    rcases lt_or_gt_of_ne hne with h | h
    · exact absurd hab (ne_of_lt (hmono a b h))
    · exact absurd hab.symm (ne_of_lt (hmono b a h))
  exact ⟨hpw, hpw.imp (fun h => ne_of_lt h),
    fun base sv t => scatter_apply_get hinj sv base t⟩

/-- C5 counterexample: on the 2 x 2 default mask (a single wet cell),
the entry of the full state vector at index 11 is an inactive (dry) h
degree of freedom, yet immediately after initialization it holds the
nonzero Gaussian value of h0 at the land cell, not zero. -/
theorem dry_entries_nonzero :
    keepNZ 2 2 (msk 2 2) ⟨11, by omega⟩ = false ∧
    (swm_init 2 2 (msk 2 2) 4 4 1 1 0 (fun x => x)).sbig ⟨11, by omega⟩ ≠ 0 := by
  constructor
  · rw [keepNZ_eq_keepB]
    decide
  · show sbig0 2 2 4 4 1 ⟨11, by omega⟩ ≠ 0
    unfold sbig0
    rw [dif_neg (by decide), dif_neg (by decide)]
    unfold h0f
    exact ne_of_gt (by positivity)

/-- C5 amended: entries of the full padded state vector at inactive
degrees of freedom are never modified: after initialization and after
any number of time steps they hold their initial values, which are zero
for the inactive u and v entries but the nonzero initial Gaussian for
inactive h entries. -/
theorem dry_dofs_frozen (nx ny : ℕ) (mB : Fin (nx * ny) → Bool) (Lx Ly Rd cg : ℝ)
    (Lm : Matrix (Fin (3 * (nx * ny))) (Fin (3 * (nx * ny))) ℝ)
    (solveFn : (Fin (nwet nx ny mB) → ℝ) → Fin (nwet nx ny mB) → ℝ) (m : ℕ)
    (idx : Fin (3 * (nx * ny))) (hdry : keepNZ nx ny mB idx = false) :
    ((time_step^[m]) (swm_init nx ny mB Lx Ly Rd cg Lm solveFn)).sbig idx =
      sbig0 nx ny Lx Ly Rd idx ∧
    ((idx : ℕ) < 2 * (nx * ny) →
      ((time_step^[m]) (swm_init nx ny mB Lx Ly Rd cg Lm solveFn)).sbig idx = 0) := by
  have hne : ∀ t, (swm_init nx ny mB Lx Ly Rd cg Lm solveFn).ik t ≠ idx := by
    intro t heq
    have hmem : ikG nx ny mB t ∈ (List.finRange (3 * (nx * ny))).filter (keepNZ nx ny mB) :=
      List.get_mem _ _ _
    have hkeep : keepNZ nx ny mB (ikG nx ny mB t) = true := (List.mem_filter.mp hmem).2
    rw [show (swm_init nx ny mB Lx Ly Rd cg Lm solveFn).ik t = ikG nx ny mB t from rfl]
      at heq
    rw [heq, hdry] at hkeep
    cases hkeep
  have h1 := iterate_sbig_dry (swm_init nx ny mB Lx Ly Rd cg Lm solveFn) m idx hne
  constructor
  · rw [h1]
    rfl
  · intro hlt
    rw [h1]
    exact sbig0_uv_zero nx ny Lx Ly Rd idx hlt

/-- Witness for the amended C5 at the 2 x 2 default mask, one time step,
dry index 11. -/
theorem dry_dofs_frozen_witness :
    keepNZ 2 2 (msk 2 2) ⟨11, by omega⟩ = false ∧
    (((time_step^[1]) (swm_init 2 2 (msk 2 2) 4 4 1 1 0 (fun x => x))).sbig
        ⟨11, by omega⟩ = sbig0 2 2 4 4 1 ⟨11, by omega⟩ ∧
      (((⟨11, by omega⟩ : Fin (3 * (2 * 2))) : ℕ) < 2 * (2 * 2) →
        ((time_step^[1]) (swm_init 2 2 (msk 2 2) 4 4 1 1 0 (fun x => x))).sbig
          ⟨11, by omega⟩ = 0)) := by
  have hdry : keepNZ 2 2 (msk 2 2) ⟨11, by omega⟩ = false := by
    rw [keepNZ_eq_keepB]
    decide
  exact ⟨hdry, dry_dofs_frozen 2 2 (msk 2 2) 4 4 1 1 0 (fun x => x) 1 ⟨11, by omega⟩ hdry⟩

/-- C6: on a 3 x 2 grid the operator IE does not map the flat coordinate
field to its eastward-neighbor field; it maps it to its
northward-neighbor field, and IN maps it to the eastward-neighbor field
(the construction through arange(n).reshape(nx, ny, order=F) transposes
the roles of the two axes relative to the C-order (ny, nx) flattening of
the fields). -/
theorem shift_matrices_differ_from_claim :
    (Matrix.mulVec (IEmat 3 2 ℚ) f32 ≠ fun p => f32 (specEastF p)) ∧
    (Matrix.mulVec (IEmat 3 2 ℚ) f32 = fun p => f32 (specNorthF p)) ∧
    (Matrix.mulVec (INmat 3 2 ℚ) f32 = fun p => f32 (specEastF p)) := by
  refine ⟨?_, ?_, ?_⟩
  · intro hEq
    have h0 := congrFun hEq ⟨0, by omega⟩
    rw [mulVec_IEmat] at h0
    simp only [f32] at h0
    norm_num [ieIdx, specEastF, specEastIdx] at h0
  · funext p
    rw [mulVec_IEmat]
    rfl
  · funext p
    rw [mulVec_INmat]
    rfl

/-- C7: on the 2 x 3 default mask, the stacked velocity vector w23
vanishes on every entry the claim classifies as active (its support is
the u entry at cell 0, whose eastward neighbor is land), yet the masked
divergence applied to it is not zero: the code masks u entries by the
northward neighbor, not the eastward one. -/
theorem masked_divergence_differs_from_claim :
    (∀ j, specVelWet 2 3 (msk 2 3) j = true → w23 j = 0) ∧
    Matrix.mulVec (hDIVmat 2 3 ℚ 1 1 (msk 2 3)) w23 ≠ 0 := by
  constructor
  · decide
  · intro hEq
    have hw : w23 = fun j => if j = (⟨0, by omega⟩ : Fin (2 * (2 * 3))) then (1 : ℚ) else 0 := by
      funext j
      unfold w23
      by_cases h : j = (⟨0, by omega⟩ : Fin (2 * (2 * 3)))
      · subst h
        rw [if_pos rfl, if_pos rfl]
      · have hne : ¬(j : ℕ) = 0 := fun hh => h (Fin.ext hh)
        rw [if_neg hne, if_neg h]
    have h0 := congrFun hEq ⟨0, by omega⟩
    rw [hw] at h0
    have hsum : Matrix.mulVec (hDIVmat 2 3 ℚ 1 1 (msk 2 3))
        (fun j => if j = (⟨0, by omega⟩ : Fin (2 * (2 * 3))) then (1 : ℚ) else 0)
        ⟨0, by omega⟩ =
        hDIVmat 2 3 ℚ 1 1 (msk 2 3) ⟨0, by omega⟩ ⟨0, by omega⟩ := by
      simp only [Matrix.mulVec, Matrix.dotProduct]
      exact sum_mul_indicator _ _
    rw [hsum] at h0
    have hentry : hDIVmat 2 3 ℚ 1 1 (msk 2 3) ⟨0, by omega⟩ ⟨0, by omega⟩ = 1 := by
      show hDIVu 2 3 ℚ 1 1 (msk 2 3) ⟨0, by omega⟩ ⟨0, by omega⟩ = 1
      unfold hDIVu d0
      rw [Matrix.smul_apply, Matrix.smul_apply, Matrix.mul_diagonal,
        Matrix.mul_diagonal, mulVec_IEmat]
      norm_num [Matrix.sub_apply, Matrix.one_apply, IWmat, iwIdx, ieIdx, mskv, bval,
        msk, smul_eq_mul]
    rw [hentry] at h0
    exact one_ne_zero h0

/-- C8: with parameter values as exact rationals, the branch with f0
nonzero computes gp = (f0 Rd)^2 / H and cg = sqrt(gp H) satisfies
cg^2 = gp H with cg nonnegative; but the branch with f0 = 0 raises
NameError (line 66 reads the undefined bare name H) instead of computing
Rd^2 beta / H. -/
theorem gp_branch_and_cg (f0 beta Rd H : ℚ) :
    (f0 ≠ 0 → gp_calc f0 beta Rd H = Except.ok ((f0 * Rd) ^ 2 / H)) ∧
    gp_calc 0 beta Rd H = Except.error NameErr.bareH ∧
    (∀ gp : ℚ, 0 ≤ gp * H → cg_calc gp H ^ 2 = (gp : ℝ) * (H : ℝ) ∧ 0 ≤ cg_calc gp H) := by
  refine ⟨fun h => ?_, ?_, fun gp hgp => ⟨?_, Real.sqrt_nonneg _⟩⟩
  · unfold gp_calc
    rw [if_neg h]
  · unfold gp_calc
    rw [if_pos rfl]
  · unfold cg_calc
    have hcast : (0 : ℝ) ≤ (gp : ℝ) * (H : ℝ) := by exact_mod_cast hgp
    exact Real.sq_sqrt hcast

/-- Witness for C8 at f0 = 1, beta = 0, Rd = 1, H = 1, gp = 1. -/
theorem gp_branch_and_cg_witness :
    ((1 : ℚ) ≠ 0 ∧ gp_calc 1 0 1 1 = Except.ok ((1 * 1) ^ 2 / 1)) ∧
    gp_calc 0 0 1 1 = Except.error NameErr.bareH ∧
    ((0 : ℚ) ≤ 1 * 1 ∧ cg_calc 1 1 ^ 2 = ((1 : ℚ) : ℝ) * ((1 : ℚ) : ℝ) ∧
      0 ≤ cg_calc 1 1) := by
  have h1 : (1 : ℚ) ≠ 0 := one_ne_zero
  have h2 : (0 : ℚ) ≤ 1 * 1 := by simp
  have h := gp_branch_and_cg 1 0 1 1
  exact ⟨⟨h1, h.1 h1⟩, h.2.1, h2, (h.2.2 1 h2).1, (h.2.2 1 h2).2⟩

/-- C9 counterexample: the 1 x 1 default mask is all land, the wet-index
list is empty, and initialization still reaches the factorization call
with a 0 x 0 reduced matrix; no configuration check or error exists. -/
theorem all_land_zero_sized_factorization :
    ikeepL 1 1 (msk 1 1) = [] ∧ factorDim 1 1 (msk 1 1) = 0 := by
  constructor
  · rw [ikeepL_eq_filter]
    decide
  · show (ikeepL 1 1 (msk 1 1)).length = 0
    rw [ikeepL_eq_filter]
    decide

/-- C9 amended: initialization performs no emptiness check: for every
mask that marks all cells land the wet-index list is empty and the
factorization of line 178 is invoked on the 0 x 0 reduced matrix (a
silent zero-sized solve); the code defines no ConfigurationError. -/
theorem all_land_mask_still_factorizes (nx ny : ℕ) (mB : Fin (nx * ny) → Bool)
    (hall : ∀ p, mB p = false) :
    ikeepL nx ny mB = [] ∧ factorDim nx ny mB = 0 := by
  have hkB : ∀ j, keepB nx ny mB j = false := by
    intro j
    unfold keepB ukeepB vkeepB
    split
    · simp [hall]
    · split
      · simp [hall]
      · exact hall _
  have hnil : ikeepL nx ny mB = [] := by
    rw [ikeepL_eq_filter]
    refine List.filter_eq_nil_iff.mpr ?_
    intro a _
    simp [hkB a]
  refine ⟨hnil, ?_⟩
  show (ikeepL nx ny mB).length = 0
  rw [hnil]
  rfl

/-- Witness for the amended C9 at the 1 x 1 default mask. -/
theorem all_land_mask_still_factorizes_witness :
    (∀ p : Fin (1 * 1), msk 1 1 p = false) ∧
    (ikeepL 1 1 (msk 1 1) = [] ∧ factorDim 1 1 (msk 1 1) = 0) := by
  have hall : ∀ p : Fin (1 * 1), msk 1 1 p = false := by decide
  exact ⟨hall, all_land_mask_still_factorizes 1 1 (msk 1 1) hall⟩

/-- C10: immediately after initialization the public snapshots U, V and
Z are identically zero (ny, nx) fields, and in particular Z is not the
nonzero Gaussian initial thickness h0; the reduced state alone carries
the initial condition. -/
theorem snapshots_zero_after_init (nx ny : ℕ) (hx : 0 < nx) (hy : 0 < ny)
    (mB : Fin (nx * ny) → Bool) (Lx Ly Rd cg : ℝ)
    (Lm : Matrix (Fin (3 * (nx * ny))) (Fin (3 * (nx * ny))) ℝ)
    (solveFn : (Fin (nwet nx ny mB) → ℝ) → Fin (nwet nx ny mB) → ℝ) :
    Uof nx ny (swm_init nx ny mB Lx Ly Rd cg Lm solveFn) = (fun _ _ => 0) ∧
    Vof nx ny (swm_init nx ny mB Lx Ly Rd cg Lm solveFn) = (fun _ _ => 0) ∧
    Zof nx ny (swm_init nx ny mB Lx Ly Rd cg Lm solveFn) = (fun _ _ => 0) ∧
    Zof nx ny (swm_init nx ny mB Lx Ly Rd cg Lm solveFn) ≠ h0grid nx ny Lx Ly Rd := by
  refine ⟨rfl, rfl, rfl, ?_⟩
  intro hEq
  have h0pos : 0 < h0grid nx ny Lx Ly Rd ⟨0, hy⟩ ⟨0, hx⟩ := by
    unfold h0grid h0f
    positivity
  have hz : (0 : ℝ) = h0grid nx ny Lx Ly Rd ⟨0, hy⟩ ⟨0, hx⟩ :=
    congrFun (congrFun hEq ⟨0, hy⟩) ⟨0, hx⟩
  exact ne_of_gt h0pos hz.symm

/-- Witness for C10 at the 2 x 2 default grid. -/
theorem snapshots_zero_after_init_witness :
    ((0 : ℕ) < 2 ∧ (0 : ℕ) < 2) ∧
    (Uof 2 2 (swm_init 2 2 (msk 2 2) 4 4 1 1 0 (fun x => x)) = (fun _ _ => 0) ∧
      Vof 2 2 (swm_init 2 2 (msk 2 2) 4 4 1 1 0 (fun x => x)) = (fun _ _ => 0) ∧
      Zof 2 2 (swm_init 2 2 (msk 2 2) 4 4 1 1 0 (fun x => x)) = (fun _ _ => 0) ∧
      Zof 2 2 (swm_init 2 2 (msk 2 2) 4 4 1 1 0 (fun x => x)) ≠ h0grid 2 2 4 4 1) := by
  have h := snapshots_zero_after_init 2 2 (by decide) (by decide) (msk 2 2) 4 4 1 1 0
    (fun x => x)
  exact ⟨⟨by decide, by decide⟩, h⟩

end SWM
